import Mathlib

/-!
Verification of the queue-sim steady-state solvers and simulator helpers.

The TypeScript source (src/queueModel.ts, src/QueueSimulator.tsx) is shallowly
embedded over `ℚ`: JavaScript `number` arithmetic is modelled as exact rational
arithmetic, integer parameters (`c`, `K`, factorial arguments) as `ℕ`, thrown
exceptions as `Except String`, and the mutable module-level factorial cache as
explicit state passing on `List ℕ`.
-/

namespace QueueSim

/-! ## Numeric kernel (src/queueModel.ts) -/

/-- Embedding of `geomSum(r, m)`: `Σ_{k=0..m} r^k`, with the near-`r=1` branch returning
`m+1` when `|1 - r| < 1e-12`. -/
def geomSum (r : ℚ) (m : ℕ) : ℚ :=
  if |1 - r| < 1 / 10 ^ 12 then (m : ℚ) + 1
  else (1 - r ^ (m + 1)) / (1 - r)

/-- Embedding of `geomWeightedSum(r, m)`: `Σ_{k=1..m} k·r^k`, with `0` for `m ≤ 0` and the
triangular-number branch when `|1 - r| < 1e-12`. -/
def geomWeightedSum (r : ℚ) (m : ℕ) : ℚ :=
  if m = 0 then 0
  else if |1 - r| < 1 / 10 ^ 12 then (m : ℚ) * ((m : ℚ) + 1) / 2
  else r * (1 - ((m : ℚ) + 1) * r ^ m + (m : ℚ) * r ^ (m + 1)) / (1 - r) ^ 2

/-- The body of the `for (let i = factorialCache.length; i <= n; i++)` loop in
`factorial`: run `steps` iterations, each multiplying the running `result` by
the current cache length and appending it (`factorialCache[i] = result` with
`i` equal to the current length is an append). -/
def extendLoop : ℕ → List ℕ → ℕ → List ℕ
  | 0, cache, _ => cache
  | steps + 1, cache, result =>
      extendLoop steps (cache ++ [result * cache.length]) (result * cache.length)

/-- Embedding of `factorial(n)` with its module-level memo cache passed explicitly: returns
the value and the updated cache.  `n = 0` and `n = 1` return `1` without
touching the cache; a truthy `factorialCache[n]` is returned as is; otherwise
the cache is extended forward from its current end (`factorialCache.length`)
up to index `n`, starting from the last cached value. -/
def factorial (n : ℕ) (cache : List ℕ) : ℕ × List ℕ :=
  if n = 0 ∨ n = 1 then (1, cache)
  else if cache.getD n 0 ≠ 0 then (cache.getD n 0, cache)
  else
    let cache2 := extendLoop (n + 1 - cache.length) cache (cache.getLastD 0)
    (cache2.getD n 0, cache2)

/-- The initial module-level cache `[1]` (`0! = 1`). -/
def factorialCache0 : List ℕ := [1]

/-- A sequence of `factorial` calls threading the shared cache: returns the
list of returned values and the final cache. -/
def runCalls (cache : List ℕ) : List ℕ → List ℕ × List ℕ
  | [] => ([], cache)
  | n :: ns =>
      let r := factorial n cache
      let rest := runCalls r.2 ns
      (r.1 :: rest.1, rest.2)

/-- Invariant of the factorial memo: nonempty, and entry `i` is `i!`. -/
def cacheInv (cache : List ℕ) : Prop :=
  1 ≤ cache.length ∧ ∀ i < cache.length, cache.getD i 0 = Nat.factorial i

instance (cache : List ℕ) : Decidable (cacheInv cache) := by
  unfold cacheInv; infer_instance

lemma extendLoop_length (s : ℕ) (cache : List ℕ) (r : ℕ) :
    (extendLoop s cache r).length = cache.length + s := by
  induction s generalizing cache r with
  | zero => simp [extendLoop]
  | succ s ih =>
      rw [extendLoop, ih]
      simp
      omega

lemma extendLoop_extends (s : ℕ) (cache : List ℕ) (r : ℕ) :
    cache <+: extendLoop s cache r := by
  induction s generalizing cache r with
  | zero => simp [extendLoop]
  | succ s ih =>
      rw [extendLoop]
      exact List.IsPrefix.trans ⟨_, rfl⟩ (ih _ _)

lemma getD_extends {l l' : List ℕ} (h : l <+: l') {i : ℕ} (hi : i < l.length) :
    l'.getD i 0 = l.getD i 0 := by
  obtain ⟨t, rfl⟩ := h
  rw [List.getD_eq_getElem?_getD, List.getD_eq_getElem?_getD,
    List.getElem?_append_left hi]

lemma extendLoop_inv (s : ℕ) (cache : List ℕ) (r : ℕ)
    (h : cacheInv cache) (hr : r = Nat.factorial (cache.length - 1)) :
    cacheInv (extendLoop s cache r) := by
  induction s generalizing cache r with
  | zero => simpa [extendLoop] using h
  | succ s ih =>
      rw [extendLoop]
      obtain ⟨hlen, hval⟩ := h
      refine ih _ _ ⟨by simp, ?_⟩ ?_
      · intro i hi
        simp only [List.length_append, List.length_cons, List.length_nil] at hi
        rcases lt_or_ge i cache.length with hlt | hge
        · rw [getD_extends ⟨_, rfl⟩ hlt]
          exact hval i hlt
        · have hieq : i = cache.length := by omega
          subst hieq
          rw [List.getD_eq_getElem?_getD, List.getElem?_append_right (le_refl _)]
          simp only [Nat.sub_self, List.getElem?_cons_zero, Option.getD_some, hr]
          have h2 : cache.length - 1 + 1 = cache.length := by omega
          calc Nat.factorial (cache.length - 1) * cache.length
              = (cache.length - 1 + 1) * Nat.factorial (cache.length - 1) := by
                rw [h2]; ring
            _ = Nat.factorial (cache.length - 1 + 1) := (Nat.factorial_succ _).symm
            _ = Nat.factorial cache.length := by rw [h2]
      · simp only [List.length_append, List.length_cons, List.length_nil]
        have h1 : cache.length + 1 - 1 = cache.length := by omega
        rw [h1, hr]
        have h2 : cache.length - 1 + 1 = cache.length := by omega
        calc Nat.factorial (cache.length - 1) * cache.length
            = (cache.length - 1 + 1) * Nat.factorial (cache.length - 1) := by
              rw [h2]; ring
          _ = Nat.factorial (cache.length - 1 + 1) := (Nat.factorial_succ _).symm
          _ = Nat.factorial cache.length := by rw [h2]

lemma getLastD_eq_getD (l : List ℕ) :
    l.getLastD 0 = l.getD (l.length - 1) 0 := by
  rw [List.getLastD_eq_getLast?, List.getLast?_eq_getElem?,
    List.getD_eq_getElem?_getD]

/-- Single-call contract of the memoized `factorial`: under the cache
invariant, the call returns `n!`, the old cache is a prefix of the new one
(no cached entry is ever changed), the invariant is preserved, and the cache
grows exactly to index `n` when the call extends it, else not at all. -/
lemma factorial_spec (n : ℕ) (cache : List ℕ) (h : cacheInv cache) :
    (factorial n cache).1 = Nat.factorial n
    ∧ cache <+: (factorial n cache).2
    ∧ cacheInv (factorial n cache).2
    ∧ (factorial n cache).2.length =
        if n + 1 ≤ cache.length ∨ n ≤ 1 then cache.length else n + 1 := by
  obtain ⟨hlen, hval⟩ := h
  by_cases h01 : n = 0 ∨ n = 1
  · rw [factorial, if_pos h01]
    refine ⟨?_, ⟨[], List.append_nil _⟩, ⟨hlen, hval⟩, ?_⟩
    · rcases h01 with rfl | rfl <;> simp
    · rw [if_pos (Or.inr (by omega))]
  · rw [factorial, if_neg h01]
    by_cases hc : cache.getD n 0 ≠ 0
    · have hlt : n < cache.length := by
        by_contra hge
        exact hc (by rw [List.getD_eq_getElem?_getD, List.getElem?_eq_none (by omega)]; rfl)
      rw [if_pos hc]
      refine ⟨hval n hlt, ⟨[], List.append_nil _⟩, ⟨hlen, hval⟩, ?_⟩
      rw [if_pos (Or.inl (by omega))]
    · rw [if_neg hc]
      push_neg at hc
      have hge : cache.length ≤ n := by
        by_contra hlt
        push_neg at hlt
        rw [hval n hlt] at hc
        exact absurd hc (Nat.factorial_ne_zero n)
      have hinv2 : cacheInv (extendLoop (n + 1 - cache.length) cache (cache.getLastD 0)) := by
        refine extendLoop_inv _ _ _ ⟨hlen, hval⟩ ?_
        rw [getLastD_eq_getD _]
        exact hval _ (by omega)
      have hlen2 : (extendLoop (n + 1 - cache.length) cache (cache.getLastD 0)).length
          = n + 1 := by rw [extendLoop_length]; omega
      refine ⟨?_, extendLoop_extends _ _ _, hinv2, ?_⟩
      · exact hinv2.2 n (by omega)
      · rw [hlen2, if_neg (by omega)]

/-! ## Finite-capacity solver M/M/c/K (`mmckFinite`) -/

structure FiniteQueueResult where
  R : ℚ
  RiPb : ℚ
  Pb : ℚ
  Ii : ℚ
  Ti : ℚ
  Ip : ℚ
  Utilization : ℚ
  I : ℚ
  T : ℚ
  P_q_gt_Q : Option ℚ
  stateProbabilities : List ℚ
deriving Repr

/-- State probability `Pn(n)` of `mmckFinite`. -/
def finPn (P0 a rho : ℚ) (c : ℕ) (n : ℕ) : ℚ :=
  if n < c then P0 * a ^ n / (Nat.factorial n : ℚ)
  else P0 * a ^ c / (Nat.factorial c : ℚ) * rho ^ (n - c)

/-- Body of `mmckFinite` after validation.  The memoized `factorial` provably
returns `Nat.factorial` (see `factorial_spec`), which is used directly here. -/
def mmckCompute (c K : ℕ) (lam mu : ℚ) (Q : Option ℕ) : FiniteQueueResult :=
  let a := lam / mu
  let rho := lam / (c * mu)
  let N := c + K
  let sum0 := ∑ n in Finset.range c, a ^ n / (Nat.factorial n : ℚ)
  let term := a ^ c / (Nat.factorial c : ℚ) * geomSum rho K
  let P0 := 1 / (sum0 + term)
  let Pb := finPn P0 a rho c N
  let R := lam * (1 - Pb)
  let RiPb := lam * Pb
  let coeff := P0 * a ^ c / (Nat.factorial c : ℚ)
  let Ii := coeff * geomWeightedSum rho K
  let Ip := R / mu
  let Utilization := Ip / c
  let I := Ii + Ip
  let Ti := if 0 < R then Ii / R else 0
  let T := if 0 < R then I / R else 0
  let P_q_gt_Q := Q.map fun q =>
    if K ≤ q then 0 else coeff * (geomSum rho K - geomSum rho q)
  let stateProbabilities := (List.range (N + 1)).map (finPn P0 a rho c)
  { R := R, RiPb := RiPb, Pb := Pb, Ii := Ii, Ti := Ti, Ip := Ip,
    Utilization := Utilization, I := I, T := T, P_q_gt_Q := P_q_gt_Q,
    stateProbabilities := stateProbabilities }

/-- Embedding of `mmckFinite`: throws when `c < 1` (the `K < 0` half of the guard cannot
fire with `K : ℕ`). -/
def mmckFinite (c K : ℕ) (lam mu : ℚ) (Q : Option ℕ) :
    Except String FiniteQueueResult :=
  if c < 1 then Except.error "c must be >= 1 and K must be >= 0"
  else Except.ok (mmckCompute c K lam mu Q)

/-! ## Infinite-capacity solver M/M/c (`mmcInfinite`) -/

structure InfiniteQueueResult where
  Ii : ℚ
  Ti : ℚ
  Ip : ℚ
  Utilization : ℚ
  I : ℚ
  T : ℚ
  Pw : ℚ
  P_q_gt_Q : Option ℚ
deriving Repr

/-- Body of `mmcInfinite` after both validations (`c ≥ 1` and `ρ < 1`).
The `t`/`P_wait_gt_t` option of the source uses `Math.exp` and is outside
the rational embedding; no claim concerns it. -/
def mmcCompute (c : ℕ) (lam mu : ℚ) (Q : Option ℕ) : InfiniteQueueResult :=
  let a := lam / mu
  let rho := lam / (c * mu)
  let sum0 := ∑ n in Finset.range c, a ^ n / (Nat.factorial n : ℚ)
  let termc := a ^ c / (Nat.factorial c : ℚ) * (1 / (1 - rho))
  let P0 := 1 / (sum0 + termc)
  let Lq := P0 * a ^ c * rho / ((Nat.factorial c : ℚ) * (1 - rho) ^ 2)
  let Wq := Lq / lam
  let Ip := a
  let Utilization := rho
  let L := Lq + Ip
  let W := Wq + 1 / mu
  let Pw := a ^ c / ((Nat.factorial c : ℚ) * (1 - rho)) * P0
  let P_q_gt_Q := Q.map fun q => P0 * a ^ c / (Nat.factorial c : ℚ) *
    (rho ^ (q + 1) / (1 - rho))
  { Ii := Lq, Ti := Wq, Ip := Ip, Utilization := Utilization, I := L, T := W,
    Pw := Pw, P_q_gt_Q := P_q_gt_Q }

/-- Embedding of `mmcInfinite`: throws when `c < 1`, then when `ρ ≥ 1`. -/
def mmcInfinite (c : ℕ) (lam mu : ℚ) (Q : Option ℕ) :
    Except String InfiniteQueueResult :=
  if c < 1 then Except.error "c must be >= 1"
  else if 1 ≤ lam / (c * mu) then
    Except.error "System must be stable: arrivalRate < c * serviceRate"
  else Except.ok (mmcCompute c lam mu Q)

/-! ## Priority solver (`mmcPriority`) -/

structure PriorityClassResult where
  Ii_k : ℚ
  Ti_k : ℚ
deriving Repr, DecidableEq

structure PriorityQueueResult where
  classes : List PriorityClassResult
  Ii_total : ℚ
deriving Repr, DecidableEq

/-- The `for (let k = 0; ...)` loop of `mmcPriority`: `k` is the running class
index, `F_prev` the running value (initially `1`); each step computes
`F_k = F_prev - f_k·ρ`, the class queue length (`k = 0` divides by `F_k`,
`k > 0` by `F_k·F_prev`), and the wait time guarded against `f_k = 0`. -/
def priorityLoop (IiTot rho lam : ℚ) : List ℚ → ℕ → ℚ → List PriorityClassResult
  | [], _, _ => []
  | f :: rest, k, F_prev =>
      let F_k := F_prev - f * rho
      let Ii_k := if k = 0 then IiTot * f * (1 - rho) / F_k
        else IiTot * f * (1 - rho) / (F_k * F_prev)
      let Ti_k := if 0 < f then Ii_k / (f * lam) else 0
      ⟨Ii_k, Ti_k⟩ :: priorityLoop IiTot rho lam rest (k + 1) F_k

/-- Embedding of `mmcPriority`: checks `ρ < 1` itself, then delegates to `mmcInfinite`
(whose own `c < 1` check can still fire) for the aggregate `Ii_total`, and
runs the per-class loop with `k = 0`, `F_prev = 1`. -/
def mmcPriority (c : ℕ) (lam mu : ℚ) (classFractions : List ℚ) :
    Except String PriorityQueueResult :=
  let rho := lam / (c * mu)
  if 1 ≤ rho then
    Except.error "System must be stable: arrivalRate < c * serviceRate"
  else
    match mmcInfinite c lam mu none with
    | Except.error e => Except.error e
    | Except.ok overall =>
        Except.ok { classes := priorityLoop overall.Ii rho lam classFractions 0 1,
                    Ii_total := overall.Ii }

/-! ## Simulator random-duration generator (src/QueueSimulator.tsx) -/

/-- Embedding of `generateRandomTime(mean, cv)`, with the underlying random draw made
explicit: `u` stands for the value of `-Math.log(1 - Math.random())`
(a unit-mean exponential variate), so the exponential draw is `u * mean`. -/
def generateRandomTime (mean cv u : ℚ) : ℚ :=
  if cv = 0 then mean
  else if cv = 1 then u * mean
  else mean * (1 - cv) + u * mean * cv

lemma priorityLoop_length (IiTot rho lam : ℚ) (l : List ℚ) (k : ℕ) (F : ℚ) :
    (priorityLoop IiTot rho lam l k F).length = l.length := by
  induction l generalizing k F with
  | nil => rfl
  | cons f rest ih => simp [priorityLoop, ih]

/-- On the stable path, `mmcPriority` returns the aggregate `Ii` of
`mmcInfinite` together with the class loop started at `k = 0`, `F_prev = 1`. -/
lemma mmcPriority_ok (c : ℕ) (lam mu : ℚ) (classFractions : List ℚ)
    (hc : 1 ≤ c) (hrho : lam / (c * mu) < 1) :
    mmcPriority c lam mu classFractions = Except.ok { classes := priorityLoop (mmcCompute c lam mu none).Ii (lam / ((c : ℚ) * mu)) lam classFractions 0 1, Ii_total := (mmcCompute c lam mu none).Ii } := by
  have hok : mmcInfinite c lam mu none = Except.ok (mmcCompute c lam mu none) := by
    rw [mmcInfinite, if_neg (by omega), if_neg (by push_neg; exact hrho)]
  rw [mmcPriority]
  simp only [hok, if_neg (not_le.mpr hrho)]

/-- Telescoping identity for the tail of the class loop (`k ≥ 1`, so the
uniform `F_k·F_prev` branch is taken throughout): the partial queue lengths
sum to `IiTot·(1-ρ)/ρ · (1/F_end - 1/F_prev)` where
`F_end = F_prev - ρ·Σl`. -/
lemma priorityLoop_sum_Ii (IiTot rho lam : ℚ) (l : List ℚ) (k : ℕ) (F_prev : ℚ)
    (hk : k ≠ 0) (hrho : 0 < rho) (hnn : ∀ f ∈ l, 0 ≤ f)
    (hF : 0 < F_prev - rho * l.sum) (hFp : 0 < F_prev) :
    ((priorityLoop IiTot rho lam l k F_prev).map (fun x => x.Ii_k)).sum
      = IiTot * (1 - rho) / rho * (1 / (F_prev - rho * l.sum) - 1 / F_prev) := by
  induction l generalizing k F_prev with
  | nil => simp [priorityLoop]
  | cons f rest ih =>
      have hf : 0 ≤ f := hnn f (by simp)
      have hrest_nn : ∀ g ∈ rest, 0 ≤ g := fun g hg => hnn g (by simp [hg])
      have hrs : 0 ≤ rest.sum := List.sum_nonneg hrest_nn
      have hsum : (f :: rest).sum = f + rest.sum := by simp
      rw [hsum] at hF
      have hFk : 0 < F_prev - f * rho := by nlinarith
      have hF2 : 0 < (F_prev - f * rho) - rho * rest.sum := by nlinarith
      rw [priorityLoop]
      simp only [if_neg hk, List.map_cons, List.sum_cons]
      rw [ih (k + 1) (F_prev - f * rho) (by omega) hrest_nn hF2 hFk]
      have h1 : F_prev - f * rho ≠ 0 := ne_of_gt hFk
      have h2 : F_prev ≠ 0 := ne_of_gt hFp
      have h3 : rho ≠ 0 := ne_of_gt hrho
      have h4 : (F_prev - f * rho) - rho * rest.sum ≠ 0 := ne_of_gt hF2
      have h5 : F_prev - rho * (f + rest.sum) = (F_prev - f * rho) - rho * rest.sum := by
        ring
      rw [h5]
      field_simp
      ring

end QueueSim

namespace QueueSim

/-! ## Claim theorems -/

/-- C2: when the class fractions are non-negative and sum to `1` (and the
system is stable), the per-class queue lengths returned by `mmcPriority` sum
exactly to the returned `Ii_total`. -/
theorem mmcPriority_sum_classes (c : ℕ) (lam mu : ℚ) (classFractions : List ℚ)
    (hc : 1 ≤ c) (hlam : 0 < lam) (hmu : 0 < mu)
    (hrho : lam / (c * mu) < 1) (hnn : ∀ f ∈ classFractions, 0 ≤ f)
    (hsum : classFractions.sum = 1) :
    ∃ r, mmcPriority c lam mu classFractions = Except.ok r
    ∧ ((r.classes.map fun x => x.Ii_k).sum = r.Ii_total) := by
  have hcmu : 0 < (c : ℚ) * mu := by positivity
  have hrhopos : 0 < lam / ((c : ℚ) * mu) := by positivity
  refine ⟨_, mmcPriority_ok c lam mu classFractions hc hrho, ?_⟩
  set rho := lam / ((c : ℚ) * mu) with hrhodef
  set IiTot := (mmcCompute c lam mu none).Ii with hIiTot
  cases classFractions with
  | nil => simp at hsum
  | cons f rest =>
      have hf : 0 ≤ f := hnn f (by simp)
      have hrest_nn : ∀ g ∈ rest, 0 ≤ g := fun g hg => hnn g (by simp [hg])
      have hrs : 0 ≤ rest.sum := List.sum_nonneg hrest_nn
      have hfrest : f + rest.sum = 1 := by simpa using hsum
      have hrho1 : rho < 1 := hrho
      have hF0 : 0 < 1 - f * rho := by nlinarith
      have hF2 : 0 < (1 - f * rho) - rho * rest.sum := by nlinarith
      show ((priorityLoop IiTot rho lam (f :: rest) 0 1).map
        (fun x => x.Ii_k)).sum = IiTot
      rw [priorityLoop]
      simp only [if_pos rfl, List.map_cons, List.sum_cons]
      rw [priorityLoop_sum_Ii IiTot rho lam rest 1 (1 - f * rho) one_ne_zero
        hrhopos hrest_nn hF2 hF0]
      have h1 : (1 : ℚ) - f * rho ≠ 0 := ne_of_gt hF0
      have h3 : rho ≠ 0 := ne_of_gt hrhopos
      have h5 : (1 - f * rho) - rho * rest.sum = 1 - rho := by
        have : rest.sum = 1 - f := by linarith
        rw [this]; ring
      have h6 : (1 : ℚ) - rho ≠ 0 := by
        have : (0:ℚ) < 1 - rho := by linarith
        exact ne_of_gt this
      rw [h5]
      field_simp
      ring

/-- Bridge between `List.range` and `Finset.range` sums. -/
lemma sum_map_range (f : ℕ → ℚ) (n : ℕ) :
    ((List.range n).map f).sum = ∑ i in Finset.range n, f i := by
  induction n with
  | zero => simp
  | succ n ih =>
      rw [List.range_succ, Finset.sum_range_succ, List.map_append,
        List.sum_append, ih]
      simp

/-- The state-probability sum splits into the below-`c` part and the
geometric part. -/
lemma finPn_sum (P0 a rho : ℚ) (c K : ℕ) :
    ∑ n in Finset.range (c + K + 1), finPn P0 a rho c n
      = P0 * (∑ n in Finset.range c, a ^ n / (Nat.factorial n : ℚ))
        + P0 * a ^ c / (Nat.factorial c : ℚ)
          * ∑ m in Finset.range (K + 1), rho ^ m := by
  have hsplit : ∑ n in Finset.range (c + K + 1), finPn P0 a rho c n
      = (∑ n in Finset.range c, finPn P0 a rho c n)
        + ∑ n in Finset.Ico c (c + K + 1), finPn P0 a rho c n := by
    rw [Finset.range_eq_Ico]
    exact (Finset.sum_Ico_consecutive _ (Nat.zero_le c)
      (by omega : c ≤ c + K + 1)).symm
  rw [hsplit]
  congr 1
  · rw [Finset.mul_sum]
    refine Finset.sum_congr rfl ?_
    intro n hn
    rw [finPn, if_pos (Finset.mem_range.mp hn)]
    ring
  · rw [Finset.sum_Ico_eq_sum_range,
      (by omega : c + K + 1 - c = K + 1), Finset.mul_sum]
    refine Finset.sum_congr rfl ?_
    intro m hm
    rw [finPn, if_neg (by omega), (by omega : c + m - c = m)]

/-- Whenever `|1 - r| ≥ 1e-12` or `r = 1` exactly, `geomSum r m` equals the
true power sum `Σ_{k=0..m} r^k`. -/
lemma geomSum_eq_true_sum (r : ℚ) (m : ℕ)
    (h : 1 / 10 ^ 12 ≤ |1 - r| ∨ r = 1) :
    geomSum r m = ∑ i in Finset.range (m + 1), r ^ i := by
  rcases h with h | rfl
  · rw [geomSum, if_neg (not_lt.mpr h)]
    have hr : r ≠ 1 := by
      intro he
      rw [he] at h
      norm_num at h
    have h1 : (1 : ℚ) - r ≠ 0 := sub_ne_zero.mpr (fun he => hr he.symm)
    have h2 : r - 1 ≠ 0 := sub_ne_zero.mpr hr
    rw [geom_sum_eq hr]
    field_simp
    ring
  · rw [geomSum, if_pos (by norm_num)]
    simp [Finset.sum_const, Finset.card_range]

/-- C3 amended: for valid parameters with `|1 - ρ| ≥ 1e-12` or `ρ = 1`
exactly (so that the `geomSum` branch used to normalize `P0` agrees with the
true power sum), the state-probability vector of `mmckFinite` sums to `1`
exactly.  (Outside that band the sum can miss `1` by more than `1e-9`; see
the counterexample.) -/
theorem mmckFinite_prob_sum (c K : ℕ) (lam mu : ℚ) (Q : Option ℕ)
    (hc : 1 ≤ c) (hlam : 0 < lam) (hmu : 0 < mu)
    (h : 1 / 10 ^ 12 ≤ |1 - lam / (c * mu)| ∨ lam / (c * mu) = 1) :
    ∃ r, mmckFinite c K lam mu Q = Except.ok r
    ∧ r.stateProbabilities.sum = 1 := by
  refine ⟨mmckCompute c K lam mu Q, by rw [mmckFinite, if_neg (by omega)], ?_⟩
  have hcpos : (0 : ℚ) < c := by
    have : (1 : ℚ) ≤ (c : ℚ) := by exact_mod_cast hc
    linarith
  have hapos : 0 < lam / mu := by positivity
  have hrhopos : 0 < lam / ((c : ℚ) * mu) := by positivity
  set a := lam / mu with ha
  set rho := lam / ((c : ℚ) * mu) with hrhod
  set S0 := ∑ n in Finset.range c, a ^ n / (Nat.factorial n : ℚ) with hS0
  set S := ∑ m in Finset.range (K + 1), rho ^ m with hS
  have hsp : (mmckCompute c K lam mu Q).stateProbabilities
      = (List.range (c + K + 1)).map
          (finPn (1 / (S0 + a ^ c / (Nat.factorial c : ℚ) * geomSum rho K)) a rho c) := rfl
  rw [hsp, sum_map_range, finPn_sum, geomSum_eq_true_sum rho K h, ← hS]
  have hS0pos : 0 < S0 := by
    refine Finset.sum_pos ?_ ?_
    · intro n _
      positivity
    · exact Finset.nonempty_range_iff.mpr (by omega)
  have hSpos : 0 < S := by
    refine Finset.sum_pos ?_ ?_
    · intro m _
      positivity
    · exact Finset.nonempty_range_iff.mpr (by omega)
  have hfac : (0 : ℚ) < (Nat.factorial c : ℚ) := by
    exact_mod_cast Nat.factorial_pos c
  have hD : 0 < S0 + a ^ c / (Nat.factorial c : ℚ) * S := by positivity
  field_simp
  ring

/-- C3 amended witness at `c = 2`, `K = 0`, `λ = 45`, `μ = 25`
(`|1 - ρ| = 1/10`). -/
theorem mmckFinite_prob_sum_witness :
    1 ≤ 2 ∧ (0 : ℚ) < 45 ∧ (0 : ℚ) < 25
    ∧ ((1 : ℚ) / 10 ^ 12 ≤ |1 - (45 : ℚ) / (((2 : ℕ) : ℚ) * 25)|
        ∨ (45 : ℚ) / (((2 : ℕ) : ℚ) * 25) = 1)
    ∧ ∃ r, mmckFinite 2 0 45 25 none = Except.ok r
      ∧ r.stateProbabilities.sum = 1 :=
  ⟨by norm_num, by norm_num, by norm_num,
    Or.inl (by rw [abs_of_nonneg (by norm_num)] <;> norm_num),
    mmckFinite_prob_sum 2 0 45 25 none (by norm_num) (by norm_num) (by norm_num)
      (Or.inl (by rw [abs_of_nonneg (by norm_num)] <;> norm_num))⟩

/-- C3 counterexample input: the state-probability sum as returned
(0 on the error path, which does not fire here). -/
def finiteProbSum (c K : ℕ) (lam mu : ℚ) : ℚ :=
  match mmckFinite c K lam mu none with
  | Except.ok r => r.stateProbabilities.sum
  | Except.error _ => 0

set_option maxRecDepth 8000 in
set_option maxHeartbeats 2000000 in
/-- C3 counterexample: at `c = 1`, `K = 6000`, `λ = 10^12/(10^12+1)`,
`μ = 1`, the traffic intensity is within (but not equal to) `1e-12` of `1`,
so `geomSum` normalizes `P0` with its `K+1` branch while the state
probabilities use true powers of `ρ`; the probability vector then sums to
about `1 - 3·10^-9`, missing `1` by more than the claimed `1e-9`. -/
theorem mmckFinite_prob_sum_counterexample :
    (mmckFinite 1 6000 ((10 ^ 12 : ℚ) / (10 ^ 12 + 1)) 1 none).isOk = true
    ∧ 1 / 10 ^ 9 < |finiteProbSum 1 6000 ((10 ^ 12 : ℚ) / (10 ^ 12 + 1)) 1 - 1| := by
  have hok : mmckFinite 1 6000 ((10 ^ 12 : ℚ) / (10 ^ 12 + 1)) 1 none
      = Except.ok (mmckCompute 1 6000 ((10 ^ 12 : ℚ) / (10 ^ 12 + 1)) 1 none) := by
    rw [mmckFinite, if_neg (by norm_num)]
  refine ⟨by rw [hok]; rfl, ?_⟩
  set lam : ℚ := (10 ^ 12 : ℚ) / (10 ^ 12 + 1) with hlam
  have habs : |1 - lam / (((1 : ℕ) : ℚ) * 1)| = 1 / (10 ^ 12 + 1) := by
    rw [hlam, abs_of_nonneg (by norm_num)]
    norm_num
  have hgs : geomSum (lam / ((1 : ℕ) * 1)) 6000 = 6001 := by
    rw [geomSum, if_pos (by rw [habs]; norm_num)]
    norm_num
  have hkey : finiteProbSum 1 6000 lam 1
      = (1 / ((∑ n in Finset.range 1, (lam / 1) ^ n / (Nat.factorial n : ℚ))
            + (lam / 1) ^ 1 / (Nat.factorial 1 : ℚ) * 6001))
          * (∑ n in Finset.range 1, (lam / 1) ^ n / (Nat.factorial n : ℚ))
        + (1 / ((∑ n in Finset.range 1, (lam / 1) ^ n / (Nat.factorial n : ℚ))
            + (lam / 1) ^ 1 / (Nat.factorial 1 : ℚ) * 6001))
          * (lam / 1) ^ 1 / (Nat.factorial 1 : ℚ)
          * ∑ m in Finset.range 6001, (lam / ((1 : ℕ) * 1)) ^ m := by
    simp only [finiteProbSum, hok]
    have hsp : (mmckCompute 1 6000 lam 1 none).stateProbabilities
        = (List.range (1 + 6000 + 1)).map
            (finPn (1 / ((∑ n in Finset.range 1, (lam / 1) ^ n / (Nat.factorial n : ℚ))
              + (lam / 1) ^ 1 / (Nat.factorial 1 : ℚ) * geomSum (lam / ((1 : ℕ) * 1)) 6000))
              (lam / 1) (lam / ((1 : ℕ) * 1)) 1) := rfl
    rw [hsp, sum_map_range, finPn_sum, hgs]
  have hr1 : lam / ((1 : ℕ) * 1) ≠ 1 := by
    rw [hlam]; norm_num
  have hgeom : ∑ m in Finset.range 6001, (lam / ((1 : ℕ) * 1)) ^ m
      = ((lam / ((1 : ℕ) * 1)) ^ 6001 - 1) / (lam / ((1 : ℕ) * 1) - 1) :=
    geom_sum_eq hr1 6001
  rw [hkey, hgeom]
  refine lt_abs.mpr (Or.inr ?_)
  rw [hlam]
  norm_num [Finset.sum_range_succ, Nat.factorial]

/-- C8: at `c = 2`, `λ = 45`, `μ = 24`, fractions `[0.2, 0.8, 0, 0]`, the
highest-priority class (index 0) has a strictly smaller wait time than the
next class (index 1), and both wait times are strictly positive. -/
theorem mmcPriority_scenarioC :
    ∃ r, mmcPriority 2 45 24 [(1 : ℚ)/5, 4/5, 0, 0] = Except.ok r
    ∧ 0 < (r.classes.getD 0 ⟨0, 0⟩).Ti_k
    ∧ 0 < (r.classes.getD 1 ⟨0, 0⟩).Ti_k
    ∧ (r.classes.getD 0 ⟨0, 0⟩).Ti_k < (r.classes.getD 1 ⟨0, 0⟩).Ti_k := by
  have hok := mmcPriority_ok 2 45 24 [(1 : ℚ)/5, 4/5, 0, 0] (by norm_num)
    (by norm_num)
  have hIi : (mmcCompute 2 45 24 none).Ii = 3375/248 := by
    simp only [mmcCompute]
    norm_num [Finset.sum_range_succ, Nat.factorial]
  rw [hIi] at hok
  refine ⟨_, hok, ?_, ?_, ?_⟩ <;> norm_num [priorityLoop]

/-- C1 counterexample input, class-0 queue length as returned (0 on the
error path, which does not fire here). -/
def class0Ii (c : ℕ) (lam mu : ℚ) (fracs : List ℚ) : ℚ :=
  match mmcPriority c lam mu fracs with
  | Except.ok r => (r.classes.getD 0 ⟨0, 0⟩).Ii_k
  | Except.error _ => 0

/-- C1 counterexample input, `Ii_total` as returned (0 on the error path). -/
def priorityIiTotal (c : ℕ) (lam mu : ℚ) (fracs : List ℚ) : ℚ :=
  match mmcPriority c lam mu fracs with
  | Except.ok r => r.Ii_total
  | Except.error _ => 0

/-- C1 counterexample: at `c = 1`, `λ = 1`, `μ = 2` (`ρ = 1/2`), fractions
`[1]`, the returned class-0 queue length is `Ii_total·f_0·(1-ρ)/(1-f_0·ρ)
= 1/2`, not `Ii_total·f_0·(1-ρ)/F(0)` with a running value `F(0) = 1`
(which would be `1/4`): the divisor for class 0 is `F` after the update
`F := 1 - f_0·ρ`, not the initial value `1`. -/
theorem mmcPriority_class0_counterexample :
    (mmcPriority 1 1 2 [(1 : ℚ)]).isOk = true
    ∧ priorityIiTotal 1 1 2 [(1 : ℚ)] = 1/2
    ∧ class0Ii 1 1 2 [(1 : ℚ)] = 1/2
    ∧ class0Ii 1 1 2 [(1 : ℚ)]
        ≠ priorityIiTotal 1 1 2 [(1 : ℚ)] * 1 * (1 - (1 : ℚ)/((1 : ℕ) * 2)) / 1 := by
  have hok := mmcPriority_ok 1 1 2 [(1 : ℚ)] (le_refl 1) (by norm_num)
  have hIi : (mmcCompute 1 1 2 none).Ii = 1/2 := by
    simp only [mmcCompute]
    norm_num [Finset.sum_range_succ, Nat.factorial]
  rw [hIi] at hok
  refine ⟨by rw [hok]; rfl, ?_, ?_, ?_⟩ <;>
    simp only [class0Ii, priorityIiTotal, hok] <;> norm_num [priorityLoop]

/-- The cumulative value of the priority decomposition, with the indexing the
code actually implements: `Fcum ρ fracs k = 1 - ρ·(f_0 + ⋯ + f_{k-1})`, so
`Fcum ρ fracs 0 = 1` is the value *before* class 0 and class `k` divides by
`Fcum (k+1) · Fcum k`. -/
def Fcum (rho : ℚ) (fracs : List ℚ) (k : ℕ) : ℚ :=
  1 - rho * ((fracs.take k).sum)

lemma priorityLoop_getD_Ii (IiTot rho lam : ℚ) :
    ∀ (l : List ℚ) (k0 : ℕ) (F : ℚ), k0 ≠ 0 → ∀ i < l.length,
    ((priorityLoop IiTot rho lam l k0 F).getD i ⟨0, 0⟩).Ii_k
      = IiTot * (l.getD i 0) * (1 - rho)
        / ((F - rho * (l.take (i + 1)).sum) * (F - rho * (l.take i).sum)) := by
  intro l
  induction l with
  | nil => intro k0 F hk i hi; simp at hi
  | cons f rest ih =>
      intro k0 F hk i hi
      cases i with
      | zero =>
          rw [priorityLoop]
          simp only [if_neg hk, List.getD_cons_zero, List.take_succ_cons,
            List.take_zero, List.sum_cons, List.sum_nil]
          congr 1
          ring
      | succ i =>
          rw [priorityLoop]
          simp only [List.getD_cons_succ, List.take_succ_cons, List.sum_cons]
          rw [ih (k0 + 1) (F - f * rho) (by omega) i (by simpa using hi)]
          have e1 : F - rho * (f + (rest.take (i + 1)).sum)
              = (F - f * rho) - rho * (rest.take (i + 1)).sum := by ring
          have e2 : F - rho * (f + (rest.take i).sum)
              = (F - f * rho) - rho * (rest.take i).sum := by ring
          rw [e1, e2]

/-- With the actual top-of-loop state (`k = 0`, `F_prev = 1`), entry `i` of
the class loop has queue length computed from fraction `i` and the
cumulative values `Fcum`. -/
lemma priorityLoop_top_Ii (IiTot rho lam : ℚ) (fracs : List ℚ) :
    ∀ i < fracs.length,
    ((priorityLoop IiTot rho lam fracs 0 1).getD i ⟨0, 0⟩).Ii_k
      = IiTot * (fracs.getD i 0) * (1 - rho)
        / (Fcum rho fracs (i + 1) * Fcum rho fracs i) := by
  intro i hi
  cases fracs with
  | nil => simp at hi
  | cons f rest =>
      cases i with
      | zero =>
          rw [priorityLoop]
          simp only [eq_self_iff_true, if_true, List.getD_cons_zero, Fcum,
            List.take_succ_cons, List.take_zero, List.sum_cons, List.sum_nil]
          congr 1
          ring
      | succ i =>
          rw [priorityLoop]
          simp only [List.getD_cons_succ]
          rw [priorityLoop_getD_Ii IiTot rho lam rest 1 (1 - f * rho)
            one_ne_zero i (by simpa using hi)]
          simp only [Fcum, List.take_succ_cons, List.sum_cons]
          have e1 : (1 : ℚ) - rho * (f + (rest.take (i + 1)).sum)
              = (1 - f * rho) - rho * (rest.take (i + 1)).sum := by ring
          have e2 : (1 : ℚ) - rho * (f + (rest.take i).sum)
              = (1 - f * rho) - rho * (rest.take i).sum := by ring
          rw [e1, e2]

/-- Entry `i` of the class loop has the guarded wait time of its own queue
length and its own fraction (the `Ti` of the source loop, per index); this
holds for every loop state, including the initial `k = 0`. -/
lemma priorityLoop_getD_Ti (IiTot rho lam : ℚ) :
    ∀ (l : List ℚ) (k0 : ℕ) (F : ℚ), ∀ i < l.length,
    ((priorityLoop IiTot rho lam l k0 F).getD i ⟨0, 0⟩).Ti_k
      = if 0 < l.getD i 0 then
          ((priorityLoop IiTot rho lam l k0 F).getD i ⟨0, 0⟩).Ii_k
            / (l.getD i 0 * lam)
        else 0 := by
  intro l
  induction l with
  | nil => intro k0 F i hi; simp at hi
  | cons f rest ih =>
      intro k0 F i hi
      cases i with
      | zero => rfl
      | succ i =>
          rw [priorityLoop]
          simp only [List.getD_cons_succ]
          exact ih (k0 + 1) (F - f * rho) i (by simpa using hi)

/-- C1 amended: for stable valid parameters, the returned class-`k` queue
length is `Ii_total·f_k·(1-ρ)/(F(k)·F(k-1))` where the cumulative values are
`F(k) = 1 - ρ·Σ_{j≤k} f_j` with `F(-1) = 1` — i.e. the running value starts
at `1` *before* class 0 and is updated by `F := F - f_k·ρ` before each
division, so class 0 divides by `1 - f_0·ρ` (not by `1`). -/
theorem mmcPriority_class_formula (c : ℕ) (lam mu : ℚ) (fracs : List ℚ)
    (hc : 1 ≤ c) (hlam : 0 < lam) (hmu : 0 < mu)
    (hrho : lam / (c * mu) < 1) :
    ∃ r, mmcPriority c lam mu fracs = Except.ok r
    ∧ ∀ i < fracs.length,
      (r.classes.getD i ⟨0, 0⟩).Ii_k
        = r.Ii_total * (fracs.getD i 0) * (1 - lam / (c * mu))
          / (Fcum (lam / (c * mu)) fracs (i + 1) * Fcum (lam / (c * mu)) fracs i) := by
  refine ⟨_, mmcPriority_ok c lam mu fracs hc hrho, ?_⟩
  intro i hi
  exact priorityLoop_top_Ii (mmcCompute c lam mu none).Ii
    (lam / ((c : ℚ) * mu)) lam fracs i hi

/-- C1 amended witness at `c = 1`, `λ = 1`, `μ = 2`, fractions `[1]`. -/
theorem mmcPriority_class_formula_witness :
    1 ≤ 1 ∧ (0 : ℚ) < 1 ∧ (0 : ℚ) < 2 ∧ (1 : ℚ) / ((1 : ℕ) * 2) < 1
    ∧ ∃ r, mmcPriority 1 1 2 [(1 : ℚ)] = Except.ok r
      ∧ ∀ i < [(1 : ℚ)].length,
        (r.classes.getD i ⟨0, 0⟩).Ii_k
          = r.Ii_total * ([(1 : ℚ)].getD i 0) * (1 - 1 / ((1 : ℕ) * 2))
            / (Fcum (1 / ((1 : ℕ) * 2)) [(1 : ℚ)] (i + 1)
                * Fcum (1 / ((1 : ℕ) * 2)) [(1 : ℚ)] i) :=
  ⟨le_refl 1, by norm_num, by norm_num, by norm_num,
    mmcPriority_class_formula 1 1 2 [(1 : ℚ)] (le_refl 1) (by norm_num)
      (by norm_num) (by norm_num)⟩

/-- C2 witness at `c = 1`, `λ = 1`, `μ = 2`, fractions `[1/2, 1/2]`. -/
theorem mmcPriority_sum_classes_witness :
    1 ≤ 1 ∧ (0 : ℚ) < 1 ∧ (0 : ℚ) < 2 ∧ (1 : ℚ) / ((1 : ℕ) * 2) < 1
    ∧ (∀ f ∈ [(1 : ℚ)/2, 1/2], 0 ≤ f) ∧ ([(1 : ℚ)/2, 1/2]).sum = 1
    ∧ ∃ r, mmcPriority 1 1 2 [(1 : ℚ)/2, 1/2] = Except.ok r
      ∧ ((r.classes.map fun x => x.Ii_k).sum = r.Ii_total) :=
  ⟨le_refl 1, by norm_num, by norm_num, by norm_num,
    by intro f hf; fin_cases hf <;> norm_num,
    by norm_num,
    mmcPriority_sum_classes 1 1 2 [(1 : ℚ)/2, 1/2] (le_refl 1) (by norm_num)
      (by norm_num) (by norm_num)
      (by intro f hf; fin_cases hf <;> norm_num)
      (by norm_num)⟩

/-- C9: the factorial cache is append-only and monotone.  For every sequence
of calls threading a cache satisfying the invariant (as the initial `[1]`
does), every call returns the exact factorial of its argument, the starting
cache is a prefix of the final one (no existing entry is ever changed or
recomputed), and the cache never grows past the largest argument seen. -/
theorem factorial_cache_append_only (ns : List ℕ) (cache : List ℕ)
    (h : cacheInv cache) :
    (runCalls cache ns).1 = ns.map Nat.factorial
    ∧ cache <+: (runCalls cache ns).2
    ∧ cacheInv (runCalls cache ns).2
    ∧ (runCalls cache ns).2.length ≤ max cache.length (ns.foldr max 0 + 1) := by
  induction ns generalizing cache with
  | nil =>
      exact ⟨rfl, ⟨[], List.append_nil _⟩, h, by simp [runCalls]⟩
  | cons n ns ih =>
      obtain ⟨hv, hpre, hinv, hlen⟩ := factorial_spec n cache h
      obtain ⟨ihv, ihpre, ihinv, ihlen⟩ := ih (factorial n cache).2 hinv
      have hlen' : (factorial n cache).2.length ≤ max cache.length (n + 1) := by
        rcases le_or_lt (n + 1) cache.length with h1 | h1
        · rw [hlen, if_pos (Or.inl h1)]; omega
        · by_cases h2 : n ≤ 1
          · rw [hlen, if_pos (Or.inr h2)]; omega
          · rw [hlen, if_neg (by omega)]; omega
      refine ⟨?_, ?_, ihinv, ?_⟩
      · simp only [runCalls, List.map_cons, hv, ihv]
      · exact hpre.trans ihpre
      · show (runCalls (factorial n cache).2 ns).2.length ≤ _
        have : max (factorial n cache).2.length (ns.foldr max 0 + 1)
            ≤ max cache.length ((n :: ns).foldr max 0 + 1) := by
          simp only [List.foldr_cons]
          omega
        omega

/-- C9 witness: the sequence `factorial 5, factorial 3, factorial 1,
factorial 6` from the initial cache `[1]` returns `[120, 6, 1, 720]`, keeps
`[1]` as a prefix, and never grows past index `6`. -/
theorem factorial_cache_append_only_witness :
    cacheInv factorialCache0
    ∧ ((runCalls factorialCache0 [5, 3, 1, 6]).1 = [5, 3, 1, 6].map Nat.factorial
      ∧ factorialCache0 <+: (runCalls factorialCache0 [5, 3, 1, 6]).2
      ∧ cacheInv (runCalls factorialCache0 [5, 3, 1, 6]).2
      ∧ (runCalls factorialCache0 [5, 3, 1, 6]).2.length
          ≤ max factorialCache0.length ([5, 3, 1, 6].foldr max 0 + 1)) :=
  ⟨by decide, factorial_cache_append_only [5, 3, 1, 6] factorialCache0 (by decide)⟩

/-- C4: with valid `c ≥ 1`, `λ > 0`, `μ > 0`, `mmcInfinite` fails with the
instability error exactly when `λ ≥ c·μ`, and returns normally when
`λ < c·μ`. -/
theorem mmcInfinite_instability (c : ℕ) (lam mu : ℚ) (Q : Option ℕ)
    (hc : 1 ≤ c) (hlam : 0 < lam) (hmu : 0 < mu) :
    ((c : ℚ) * mu ≤ lam →
      mmcInfinite c lam mu Q =
        Except.error "System must be stable: arrivalRate < c * serviceRate")
    ∧ (lam < (c : ℚ) * mu →
      mmcInfinite c lam mu Q = Except.ok (mmcCompute c lam mu Q)) := by
  have hcmu : 0 < (c : ℚ) * mu := by positivity
  constructor
  · intro hle
    rw [mmcInfinite, if_neg (by omega), if_pos]
    exact (one_le_div hcmu).mpr hle
  · intro hlt
    rw [mmcInfinite, if_neg (by omega), if_neg]
    push_neg
    exact (div_lt_one hcmu).mpr hlt

/-- C4 witness: at `c = 2`, `λ = 50`, `μ = 25` the solver reports
instability (`50 ≥ 2·25`), and at `λ = 45` it returns normally. -/
theorem mmcInfinite_instability_witness :
    (1 ≤ 2 ∧ (0 : ℚ) < 50 ∧ (0 : ℚ) < 25 ∧ ((2 : ℕ) : ℚ) * 25 ≤ 50
      ∧ mmcInfinite 2 50 25 none =
          Except.error "System must be stable: arrivalRate < c * serviceRate")
    ∧ ((45 : ℚ) < ((2 : ℕ) : ℚ) * 25
      ∧ mmcInfinite 2 45 25 none = Except.ok (mmcCompute 2 45 25 none)) :=
  ⟨⟨by norm_num, by norm_num, by norm_num, by norm_num,
      (mmcInfinite_instability 2 50 25 none (by norm_num) (by norm_num)
        (by norm_num)).1 (by norm_num)⟩,
    ⟨by norm_num,
      (mmcInfinite_instability 2 45 25 none (by norm_num) (by norm_num)
        (by norm_num)).2 (by norm_num)⟩⟩

/-- C5: for valid parameters the finite solver returns `R = λ(1-Pb)` and
`RiPb = λ·Pb`, so `R + RiPb = λ` exactly. -/
theorem mmckFinite_conservation (c K : ℕ) (lam mu : ℚ) (Q : Option ℕ)
    (hc : 1 ≤ c) (hlam : 0 < lam) (hmu : 0 < mu) :
    ∃ r, mmckFinite c K lam mu Q = Except.ok r
    ∧ r.R = lam * (1 - r.Pb) ∧ r.RiPb = lam * r.Pb ∧ r.R + r.RiPb = lam := by
  refine ⟨mmckCompute c K lam mu Q, ?_, rfl, rfl, ?_⟩
  · rw [mmckFinite, if_neg (by omega)]
  · have hR : (mmckCompute c K lam mu Q).R
        = lam * (1 - (mmckCompute c K lam mu Q).Pb) := rfl
    have hRi : (mmckCompute c K lam mu Q).RiPb
        = lam * (mmckCompute c K lam mu Q).Pb := rfl
    rw [hR, hRi]; ring

/-- C5 witness at `c = 2`, `K = 0`, `λ = 45`, `μ = 25`. -/
theorem mmckFinite_conservation_witness :
    1 ≤ 2 ∧ (0 : ℚ) < 45 ∧ (0 : ℚ) < 25
    ∧ ∃ r, mmckFinite 2 0 45 25 none = Except.ok r
      ∧ r.R = 45 * (1 - r.Pb) ∧ r.RiPb = 45 * r.Pb ∧ r.R + r.RiPb = 45 :=
  ⟨by norm_num, by norm_num, by norm_num,
    mmckFinite_conservation 2 0 45 25 none (by norm_num) (by norm_num)
      (by norm_num)⟩

/-- C6: in the finite solver's result, `I = Ii + Ip`; when `R > 0` the wait
and system times are `Ti = Ii/R` and `T = I/R`, and when `R = 0` both are
defined to be `0` (no division-by-zero failure). -/
theorem mmckFinite_times (c K : ℕ) (lam mu : ℚ) (Q : Option ℕ)
    (hc : 1 ≤ c) (hlam : 0 < lam) (hmu : 0 < mu) :
    ∃ r, mmckFinite c K lam mu Q = Except.ok r
    ∧ r.I = r.Ii + r.Ip
    ∧ (0 < r.R → r.Ti = r.Ii / r.R ∧ r.T = r.I / r.R)
    ∧ (r.R = 0 → r.Ti = 0 ∧ r.T = 0) := by
  refine ⟨mmckCompute c K lam mu Q, ?_, rfl, ?_, ?_⟩
  · rw [mmckFinite, if_neg (by omega)]
  · intro hpos
    have hTi : (mmckCompute c K lam mu Q).Ti
        = if 0 < (mmckCompute c K lam mu Q).R
          then (mmckCompute c K lam mu Q).Ii / (mmckCompute c K lam mu Q).R
          else 0 := rfl
    have hT : (mmckCompute c K lam mu Q).T
        = if 0 < (mmckCompute c K lam mu Q).R
          then (mmckCompute c K lam mu Q).I / (mmckCompute c K lam mu Q).R
          else 0 := rfl
    rw [hTi, hT, if_pos hpos, if_pos hpos]
    exact ⟨rfl, rfl⟩
  · intro hzero
    have hTi : (mmckCompute c K lam mu Q).Ti
        = if 0 < (mmckCompute c K lam mu Q).R
          then (mmckCompute c K lam mu Q).Ii / (mmckCompute c K lam mu Q).R
          else 0 := rfl
    have hT : (mmckCompute c K lam mu Q).T
        = if 0 < (mmckCompute c K lam mu Q).R
          then (mmckCompute c K lam mu Q).I / (mmckCompute c K lam mu Q).R
          else 0 := rfl
    rw [hTi, hT, if_neg (by rw [hzero]; exact lt_irrefl 0),
      if_neg (by rw [hzero]; exact lt_irrefl 0)]
    exact ⟨rfl, rfl⟩

/-- C6 witness at `c = 2`, `K = 0`, `λ = 45`, `μ = 25`. -/
theorem mmckFinite_times_witness :
    1 ≤ 2 ∧ (0 : ℚ) < 45 ∧ (0 : ℚ) < 25
    ∧ ∃ r, mmckFinite 2 0 45 25 none = Except.ok r
      ∧ r.I = r.Ii + r.Ip
      ∧ (0 < r.R → r.Ti = r.Ii / r.R ∧ r.T = r.I / r.R)
      ∧ (r.R = 0 → r.Ti = 0 ∧ r.T = 0) :=
  ⟨by norm_num, by norm_num, by norm_num,
    mmckFinite_times 2 0 45 25 none (by norm_num) (by norm_num) (by norm_num)⟩

/-- C7: the random-duration generator is deterministic at `cv = 0`: whatever
the underlying random draws `u`, `v` are, `generateRandomTime mean 0` returns
exactly `mean`, so repeated runs produce identical durations. -/
theorem generateRandomTime_cv_zero (mean u v : ℚ) :
    generateRandomTime mean 0 u = mean
    ∧ generateRandomTime mean 0 u = generateRandomTime mean 0 v := by
  constructor <;> simp [generateRandomTime]

/-- C10: `mmcPriority` performs no validation of `classFractions`: for any
fractions list whatsoever (empty, negative entries, wrong sum), with stable
valid rates it returns normally, with exactly one class entry per fraction,
in the same order — entry `i` is the class record computed from fraction `i`
(queue length from fraction `i` and the cumulative `Fcum` values of the
prefix, wait time the guarded quotient by fraction `i`). -/
theorem mmcPriority_no_fraction_validation (c : ℕ) (lam mu : ℚ)
    (classFractions : List ℚ) (hc : 1 ≤ c) (hlam : 0 < lam) (hmu : 0 < mu)
    (hrho : lam / (c * mu) < 1) :
    ∃ r, mmcPriority c lam mu classFractions = Except.ok r
    ∧ r.classes.length = classFractions.length
    ∧ ∀ i < classFractions.length,
        (r.classes.getD i ⟨0, 0⟩).Ii_k
          = r.Ii_total * (classFractions.getD i 0) * (1 - lam / (c * mu))
            / (Fcum (lam / (c * mu)) classFractions (i + 1)
                * Fcum (lam / (c * mu)) classFractions i)
        ∧ (r.classes.getD i ⟨0, 0⟩).Ti_k
          = (if 0 < classFractions.getD i 0 then
              (r.classes.getD i ⟨0, 0⟩).Ii_k / (classFractions.getD i 0 * lam)
            else 0) := by
  refine ⟨_, mmcPriority_ok c lam mu classFractions hc hrho,
    priorityLoop_length _ _ _ _ _ _, ?_⟩
  intro i hi
  exact ⟨priorityLoop_top_Ii (mmcCompute c lam mu none).Ii
      (lam / ((c : ℚ) * mu)) lam classFractions i hi,
    priorityLoop_getD_Ti (mmcCompute c lam mu none).Ii
      (lam / ((c : ℚ) * mu)) lam classFractions 0 1 i hi⟩

/-- C10 witness: a 3-element fractions list with a negative entry and sum
greater than 1 still yields a normal result with 3 class entries, each
computed from its own fraction in order. -/
theorem mmcPriority_no_fraction_validation_witness :
    1 ≤ 2 ∧ (0 : ℚ) < 45 ∧ (0 : ℚ) < 24 ∧ (45 : ℚ) / ((2 : ℕ) * 24) < 1
    ∧ ∃ r, mmcPriority 2 45 24 [-1, 3, 0] = Except.ok r
      ∧ r.classes.length = [(-1 : ℚ), 3, 0].length
      ∧ ∀ i < [(-1 : ℚ), 3, 0].length,
          (r.classes.getD i ⟨0, 0⟩).Ii_k
            = r.Ii_total * ([(-1 : ℚ), 3, 0].getD i 0) * (1 - 45 / ((2 : ℕ) * 24))
              / (Fcum (45 / ((2 : ℕ) * 24)) [(-1 : ℚ), 3, 0] (i + 1)
                  * Fcum (45 / ((2 : ℕ) * 24)) [(-1 : ℚ), 3, 0] i)
          ∧ (r.classes.getD i ⟨0, 0⟩).Ti_k
            = (if 0 < [(-1 : ℚ), 3, 0].getD i 0 then
                (r.classes.getD i ⟨0, 0⟩).Ii_k / ([(-1 : ℚ), 3, 0].getD i 0 * 45)
              else 0) :=
  ⟨by norm_num, by norm_num, by norm_num, by norm_num,
    mmcPriority_no_fraction_validation 2 45 24 [-1, 3, 0] (by norm_num)
      (by norm_num) (by norm_num) (by norm_num)⟩

end QueueSim
